import Mathlib

/-!
# Verification of the WSL build bridge (`plugin.py`)

Shallow embedding of the three pure translation functions of the plugin:

* `wsl_path` — `WslExecCommand.wsl_path` (path conversion),
* `wsl_env`  — `WslExecCommand.wsl_env` (environment bridge),
* `wsl_cmd`  — `WslExecCommand.wsl_cmd` (argv assembly).

Python strings are modelled as `String` (with the underlying `List Char`),
Python `dict` (which preserves insertion order) as an ordered association
list `List (String × String)` with unique keys, and Python runtime errors
(`IndexError` from out-of-range indexing, `KeyError` from `dict.pop`) as
`Except String`.
-/

/-- The final `path.replace("\\", "/")` acts on each character. -/
def bsToSlash (c : Char) : Char := if c = '\\' then '/' else c

/--
One pass of `re.sub(r"\\\\wsl(?:\.localhost|\$)\\[^\\]*", "", path)`,
scanning left to right with the given fuel (one unit per step, which is
enough fuel whenever `fuel ≥ length`, since every step consumes at least
one character).  At each position the regex is tried: the literal marker
`\\wsl.localhost\` or `\\wsl$\` followed by the greedy `[^\\]*`
(`dropWhile (· != '\\')`); on a match the matched characters are removed
(replacement is the empty string) and scanning resumes after the match,
otherwise the character is kept and scanning moves one position right.
-/
def subWslMarker : Nat → List Char → List Char
  | 0, s => s
  | _+1, [] => []
  | n+1, '\\' :: '\\' :: 'w' :: 's' :: 'l' :: '.' :: 'l' :: 'o' :: 'c' :: 'a' :: 'l' :: 'h' :: 'o' :: 's' :: 't' :: '\\' :: r =>
      subWslMarker n (r.dropWhile (fun c => c != '\\'))
  | n+1, '\\' :: '\\' :: 'w' :: 's' :: 'l' :: '$' :: '\\' :: r =>
      subWslMarker n (r.dropWhile (fun c => c != '\\'))
  | n+1, c :: cs => c :: subWslMarker n cs

/-- `re.sub(r"\\\\wsl(?:\.localhost|\$)\\[^\\]*", "", ·)` on a char list. -/
def reSubWsl (s : List Char) : List Char := subWslMarker s.length s

/--
`WslExecCommand.wsl_path` on the underlying character list:

* `path.startswith("\\\\")` is `s.take 2 = ['\\', '\\']`;
* `path[1:3] == ":\\"` is `(s.drop 1).take 2 = [':', '\\']` (Python slices
  never raise, a short string gives a short slice);
* `"".join(("/mnt/", path[0].lower(), path[2:]))`; `path[0]` is only reached
  when the slice test succeeded, hence the list has at least 3 characters
  and the `headD` default is never used.  `str.lower` is modelled by
  `Char.toLower` (they agree on ASCII, which is all the claims use);
* the unconditional `path.replace("\\", "/")` is the final `map`.
-/
def wslPathCore (s : List Char) : List Char :=
  let t :=
    if s.take 2 = ['\\', '\\'] then reSubWsl s
    else if (s.drop 1).take 2 = [':', '\\'] then
      '/' :: 'm' :: 'n' :: 't' :: '/' :: (s.headD ' ').toLower :: s.drop 2
    else s
  t.map bsToSlash

/-- `WslExecCommand.wsl_path` (the spec's `PathTranslator.translate`). -/
def wsl_path (p : String) : String := String.mk (wslPathCore p.data)

/-- A path already in POSIX form: it contains no backslash. -/
def isPosixPath (p : String) : Bool := p.data.all (fun c => c != '\\')

/-! ## Command builder (`WslExecCommand.wsl_cmd`) -/

/-- Python's `str.isspace` characters removed by `str.strip()` (the ASCII
ones; the claims use only ASCII). -/
def pyIsSpace (c : Char) : Bool :=
  c == ' ' || c == '\t' || c == '\n' || c == '\r' || c == '\x0b' || c == '\x0c'

/-- `str.strip()`: drop leading and trailing whitespace. -/
def pyStrip (s : String) : String :=
  String.mk (((s.data.dropWhile pyIsSpace).reverse.dropWhile pyIsSpace).reverse)

/-- `str.split(" ")`: split on every single literal space; consecutive
spaces, and leading or trailing spaces, give empty fields, and the empty
string gives the single field `[""]` (CPython semantics of `split` with an
explicit separator). -/
def splitSpaceCore (acc : List Char) : List Char → List (List Char)
  | [] => [acc.reverse]
  | c :: cs => if c = ' ' then acc.reverse :: splitSpaceCore [] cs else splitSpaceCore (c :: acc) cs

/-- `str.split(" ")` on strings. -/
def pySplit (s : String) : List String := (splitSpaceCore [] s.data).map String.mk

/-- The dynamically-typed `cmd` argument: a Python `str` or `list` of `str`. -/
inductive Cmd where
  | str (s : String)
  | list (l : List String)

/--
`WslExecCommand.wsl_cmd`:

```python
wsl = ["start", "cmd", "/k", "wsl"] if external else ["wsl"]
if cwd:
    wsl += ["cd", self.wsl_path(cwd), ";"]
if isinstance(cmd, str):
    return wsl + [a.strip() for a in cmd.split(" ")]
return wsl + cmd
```

A Python string is truthy exactly when it is non-empty.
-/
def wsl_cmd (cmd : Cmd) (cwd : String) (external : Bool) : List String :=
  let wsl := if external then ["start", "cmd", "/k", "wsl"] else ["wsl"]
  let wsl := if cwd = "" then wsl else wsl ++ ["cd", wsl_path cwd, ";"]
  match cmd with
  | Cmd.str s => wsl ++ (pySplit s).map pyStrip
  | Cmd.list l => wsl ++ l

/-! ## Environment bridge (`WslExecCommand.wsl_env`)

A Python `dict` is insertion-ordered; it is modelled as an association
list with pairwise-distinct keys.  `d[k] = v` updates the value in place
when the key is present and appends the new entry otherwise; `d.pop(k)`
removes the entry (raising `KeyError` when absent); `list(d)` is the key
list in order; `d.get(k, dflt)` is lookup with a default. -/

/-- `env.get(k, d)`. -/
def dget : List (String × String) → String → String → String
  | [], _, d => d
  | (k2, v) :: rest, k, d => if k2 = k then v else dget rest k d

/-- `env[k] = v`: update in place, else append. -/
def dset : List (String × String) → String → String → List (String × String)
  | [], k, v => [(k, v)]
  | (k2, v2) :: rest, k, v => if k2 = k then (k, v) :: rest else (k2, v2) :: dset rest k v

/-- `env.pop(k)`: the removed value and the remaining mapping, or `none`
(Python raises `KeyError`) when the key is absent. -/
def dpop : List (String × String) → String → Option (String × List (String × String))
  | [], _ => none
  | (k2, v) :: rest, k =>
      if k2 = k then some (v, rest)
      else (dpop rest k).map (fun p => (p.1, (k2, v) :: p.2))

/-- Removal of the (first) entry with the given key; `dpop`'s leftover. -/
def eraseKey : List (String × String) → String → List (String × String)
  | [], _ => []
  | (k2, v) :: rest, k => if k2 = k then rest else (k2, v) :: eraseKey rest k

/-- The keys of the mapping, in order (`list(env)`). -/
def keysOf (env : List (String × String)) : List String := env.map Prod.fst

/-- `existing.strip(" :")`: drop leading and trailing spaces and colons. -/
def pyStripSpaceColon (s : String) : String :=
  String.mk (((s.data.dropWhile (fun c => c == ' ' || c == ':')).reverse.dropWhile
      (fun c => c == ' ' || c == ':')).reverse)

/-- `key[-2] == "/" and key[-1] in ("l", "p", "u", "w")`, for keys long
enough that the indexing does not raise. -/
def isFlagged (k : String) : Bool :=
  match k.data.reverse with
  | a :: b :: _ => b == '/' && (a == 'l' || a == 'p' || a == 'u' || a == 'w')
  | _ => false

/-- `key[:-2]`: the key with its last two characters removed. -/
def stripFlag (k : String) : String := String.mk ((k.data.reverse.drop 2).reverse)

/-- The name under which an entry ends up: flag suffix stripped when
present, the key itself otherwise. -/
def strippedName (k : String) : String := if isFlagged k then stripFlag k else k

/-- The message of Python's out-of-range string indexing error. -/
def errIndex : String := "IndexError: string index out of range"

/--
The flag-stripping loop of `wsl_env`:

```python
for key in keys:
    if key[-2] == "/" and key[-1] in ("l", "p", "u", "w"):
        env[key[:-2]] = env.pop(key)
```

`key[-2]` raises `IndexError` exactly when the key has fewer than two
characters (the code has no length guard), which the first test models;
for longer keys `isFlagged` is literally the tested condition on the last
two characters.  The right-hand side `env.pop(key)` is evaluated before
the assignment to `env[key[:-2]]`.
-/
def envLoop : List String → List (String × String) → Except String (List (String × String))
  | [], env => Except.ok env
  | key :: rest, env =>
    if key.data.length < 2 then Except.error errIndex
    else if isFlagged key then
      match dpop env key with
      | none => Except.error "KeyError"
      | some (v, env2) => envLoop rest (dset env2 (stripFlag key) v)
    else envLoop rest env

/--
`WslExecCommand.wsl_env` (the spec's `EnvironmentBridge.build`):

```python
keys = list(env)
if keys:
    existing = env.get("WSLENV", "")
    env["WSLENV"] = ":".join(keys)
    if existing:
        env["WSLENV"] += ":" + existing.strip(" :")
    for key in keys: ...   # envLoop
return env
```
-/
def wsl_env (env : List (String × String)) : Except String (List (String × String)) :=
  let keys := keysOf env
  if keys = [] then Except.ok env
  else
    let existing := dget env "WSLENV" ""
    let env1 := dset env "WSLENV" (String.intercalate ":" keys)
    let env2 :=
      if existing = "" then env1
      else dset env1 "WSLENV" (dget env1 "WSLENV" "" ++ ":" ++ pyStripSpaceColon existing)
    envLoop keys env2

/-! ## Basic lemmas about the path translator -/

/-- The 52 ASCII letters (`Drive-letter path pattern: single ASCII letter`). -/
def asciiLetters : List Char :=
  "ABCDEFGHIJKLMNOPQRSTUVWXYZabcdefghijklmnopqrstuvwxyz".data

theorem bsToSlash_ne_bs (c : Char) : bsToSlash c ≠ '\\' := by
  unfold bsToSlash
  split
  · decide
  · assumption

theorem mapBS_not_mem (l : List Char) : '\\' ∉ l.map bsToSlash := by
  intro h
  rcases List.mem_map.mp h with ⟨c, _, hc⟩
  exact bsToSlash_ne_bs c hc

theorem mapBS_eq_self {l : List Char} (h : '\\' ∉ l) : l.map bsToSlash = l := by
  induction l with
  | nil => rfl
  | cons c cs ih =>
    simp only [List.mem_cons, not_or] at h
    have hc : c ≠ '\\' := fun he => h.1 he.symm
    simp only [List.map_cons, ih h.2]
    unfold bsToSlash
    rw [if_neg hc]

theorem wslPathCore_no_bs (s : List Char) : '\\' ∉ wslPathCore s := by
  unfold wslPathCore
  exact mapBS_not_mem _

theorem wslPathCore_posix {s : List Char} (h : '\\' ∉ s) : wslPathCore s = s := by
  have h1 : ¬ (s.take 2 = ['\\', '\\']) := by
    intro he
    exact h (List.take_subset 2 s (by rw [he]; exact List.mem_cons_self _ _))
  have h2 : ¬ ((s.drop 1).take 2 = [':', '\\']) := by
    intro he
    refine h (List.drop_subset 1 s (List.take_subset 2 (s.drop 1) ?_))
    rw [he]
    exact List.mem_cons_of_mem _ (List.mem_cons_self _ _)
  unfold wslPathCore
  rw [if_neg h1, if_neg h2, mapBS_eq_self h]

theorem wsl_path_posix {p : String} (h : isPosixPath p = true) : wsl_path p = p := by
  have hmem : '\\' ∉ p.data := by
    intro hm
    have hb := List.all_eq_true.mp h _ hm
    simp at hb
  show String.mk (wslPathCore p.data) = p
  rw [wslPathCore_posix hmem]

/-! ## Claims about `wsl_path` -/

/--
Claim C9 (confirmed): `translate` is idempotent on already-POSIX paths:
for every path `p` containing no backslash, applying `wsl_path` twice
gives the same result as applying it once.
-/
theorem wsl_path_idempotent_posix (p : String) (h : isPosixPath p = true) :
    wsl_path (wsl_path p) = wsl_path p := by
  rw [wsl_path_posix h]
  exact wsl_path_posix h

/-- Witness for C9 at the concrete POSIX path `/home/u`. -/
theorem wsl_path_idempotent_posix_witness :
    isPosixPath "/home/u" = true ∧ wsl_path (wsl_path "/home/u") = wsl_path "/home/u" :=
  ⟨by decide, wsl_path_idempotent_posix "/home/u" (by decide)⟩

/--
Claim C7 (confirmed): both recognized network-prefix spellings map to the
same subsystem-local path: `translate("\\wsl$\Ubuntu\home\u")` and
`translate("\\wsl.localhost\Ubuntu\home\u")` both yield `/home/u`.
-/
theorem wsl_path_unc_spellings :
    wsl_path "\\\\wsl$\\Ubuntu\\home\\u" = "/home/u" ∧
    wsl_path "\\\\wsl.localhost\\Ubuntu\\home\\u" = "/home/u" :=
  ⟨by decide, by decide⟩

/--
Claim C6 (confirmed): for every drive-letter path of the form `X:\a\b`
(`X` an ASCII letter, segments `a` and `b` backslash-free), `translate`
yields `/mnt/<lower(x)>/a/b`: the drive letter is lower-cased and inserted
into the fixed `/mnt/` root, the remainder is preserved, and every
backslash becomes a forward slash.
-/
theorem wsl_path_drive_letter (c : Char) (a b : List Char)
    (hc : c ∈ asciiLetters) (ha : '\\' ∉ a) (hb : '\\' ∉ b) :
    wsl_path (String.mk (c :: ':' :: '\\' :: (a ++ '\\' :: b)))
      = String.mk ('/' :: 'm' :: 'n' :: 't' :: '/' :: c.toLower :: '/' :: (a ++ '/' :: b)) := by
  refine congrArg String.mk ?_
  have h1 : ¬ ((c :: ':' :: '\\' :: (a ++ '\\' :: b)).take 2 = ['\\', '\\']) := by
    intro he
    rw [show (c :: ':' :: '\\' :: (a ++ '\\' :: b)).take 2 = [c, ':'] from rfl] at he
    injection he with ha1 hb1
    injection hb1 with hb2 hc2
    exact absurd hb2 (by decide)
  have h2 : ((c :: ':' :: '\\' :: (a ++ '\\' :: b)).drop 1).take 2 = [':', '\\'] := rfl
  have hlow : bsToSlash c.toLower = c.toLower :=
    (by decide : ∀ x ∈ asciiLetters, bsToSlash x.toLower = x.toLower) c hc
  unfold wslPathCore
  rw [if_neg h1, if_pos h2]
  rw [show (c :: ':' :: '\\' :: (a ++ '\\' :: b)).headD ' ' = c from rfl]
  rw [show (c :: ':' :: '\\' :: (a ++ '\\' :: b)).drop 2 = '\\' :: (a ++ '\\' :: b) from rfl]
  simp only [List.map_cons, List.map_append]
  rw [hlow, mapBS_eq_self ha, mapBS_eq_self hb]
  rfl

/-- Witness for C6 at the concrete drive path `C:\a\b`. -/
theorem wsl_path_drive_letter_witness : wsl_path "C:\\a\\b" = "/mnt/c/a/b" := by
  have h := wsl_path_drive_letter 'C' ['a'] ['b'] (by decide) (by decide) (by decide)
  have e1 : "C:\\a\\b" = String.mk ('C' :: ':' :: '\\' :: (['a'] ++ '\\' :: ['b'])) := by decide
  have e2 : String.mk ('/' :: 'm' :: 'n' :: 't' :: '/' :: Char.toLower 'C' :: '/'
      :: (['a'] ++ '/' :: ['b'])) = "/mnt/c/a/b" := by decide
  rw [e1, ← e2]
  exact h

/--
Claim C8 (counterexample): the claim says the drive-letter rewrite fires
only when the first character is an ASCII letter; but `'1'` is no ASCII
letter and `translate("1:\x")` is still rewritten to the mount form
`/mnt/1/x` (and not to the passthrough conversion `1:/x`).
-/
theorem wsl_path_nonletter_counterexample :
    '1' ∉ asciiLetters ∧ wsl_path "1:\\x" = "/mnt/1/x" ∧ wsl_path "1:\\x" ≠ "1:/x" :=
  ⟨by decide, by decide, by decide⟩

/--
Claim C8 (corrected): the drive-letter rewrite of `translate` applies to
exactly the paths (not starting with a double backslash) whose character
at position 1 is `:` and at position 2 is `\`, with no condition at all on
the first character, which is lower-cased (and backslash-converted) into
the `/mnt/` template; every other such path falls through to passthrough
with backslash conversion.
-/
theorem wsl_path_colon_backslash_amended (c0 c1 c2 : Char) (r : List Char)
    (hne : ¬ (c0 = '\\' ∧ c1 = '\\')) :
    (c1 = ':' ∧ c2 = '\\' →
      wsl_path (String.mk (c0 :: c1 :: c2 :: r))
        = String.mk ('/' :: 'm' :: 'n' :: 't' :: '/' :: bsToSlash c0.toLower :: '/'
            :: r.map bsToSlash)) ∧
    (¬ (c1 = ':' ∧ c2 = '\\') →
      wsl_path (String.mk (c0 :: c1 :: c2 :: r))
        = String.mk ((c0 :: c1 :: c2 :: r).map bsToSlash)) := by
  constructor
  · rintro ⟨rfl, rfl⟩
    refine congrArg String.mk ?_
    have h1 : ¬ ((c0 :: ':' :: '\\' :: r).take 2 = ['\\', '\\']) := by
      intro he
      rw [show (c0 :: ':' :: '\\' :: r).take 2 = [c0, ':'] from rfl] at he
      injection he with ha1 hb1
      injection hb1 with hb2 hc2
      exact absurd hb2 (by decide)
    have h2 : ((c0 :: ':' :: '\\' :: r).drop 1).take 2 = [':', '\\'] := rfl
    unfold wslPathCore
    rw [if_neg h1, if_pos h2]
    rfl
  · intro hn
    refine congrArg String.mk ?_
    have h1 : ¬ ((c0 :: c1 :: c2 :: r).take 2 = ['\\', '\\']) := by
      intro he
      rw [show (c0 :: c1 :: c2 :: r).take 2 = [c0, c1] from rfl] at he
      injection he with ha1 hb1
      injection hb1 with hb2 hc2
      exact hne ⟨ha1, hb2⟩
    have h2 : ¬ (((c0 :: c1 :: c2 :: r).drop 1).take 2 = [':', '\\']) := by
      intro he
      rw [show ((c0 :: c1 :: c2 :: r).drop 1).take 2 = [c1, c2] from rfl] at he
      injection he with ha1 hb1
      injection hb1 with hb2 hc2
      exact hn ⟨ha1, hb2⟩
    unfold wslPathCore
    rw [if_neg h1, if_neg h2]

/-- Witness for the amended C8 at the non-letter drive path `2:\y`. -/
theorem wsl_path_colon_backslash_amended_witness :
    wsl_path (String.mk ['2', ':', '\\', 'y']) = String.mk ['/', 'm', 'n', 't', '/', '2', '/', 'y'] := by
  have h := (wsl_path_colon_backslash_amended '2' ':' '\\' ['y'] (by decide)).1 ⟨rfl, rfl⟩
  exact h.trans (by decide)

/-! ## Claims about `wsl_cmd` -/

/--
Claim C5 (confirmed): `wsl_cmd` on the string command `"echo hi"` with no
working directory yields `["wsl", "echo", "hi"]`, and with a non-empty
already-POSIX working directory `D` yields
`["wsl", "cd", D, ";", "echo", "hi"]`.
-/
theorem wsl_cmd_echo_hi :
    wsl_cmd (Cmd.str "echo hi") "" false = ["wsl", "echo", "hi"] ∧
    ∀ (D : String), D ≠ "" → isPosixPath D = true →
      wsl_cmd (Cmd.str "echo hi") D false = ["wsl", "cd", D, ";", "echo", "hi"] := by
  constructor
  · decide
  · intro D hD hpos
    have h1 : wsl_path D = D := wsl_path_posix hpos
    have h2 : (pySplit "echo hi").map pyStrip = ["echo", "hi"] := by decide
    simp [wsl_cmd, hD, h1, h2]

/-- Witness for C5 at the POSIX working directory `/home/u`. -/
theorem wsl_cmd_echo_hi_witness :
    wsl_cmd (Cmd.str "echo hi") "/home/u" false = ["wsl", "cd", "/home/u", ";", "echo", "hi"] :=
  wsl_cmd_echo_hi.2 "/home/u" (by decide) (by decide)

/--
Claim C3 (counterexample): the empty *string* command does not yield a
prefix-only argv: `wsl_cmd("", "", false)` is `["wsl", ""]`, not `["wsl"]`
— the empty string contributes one empty-string token.
-/
theorem wsl_cmd_empty_string_counterexample :
    wsl_cmd (Cmd.str "") "" false = ["wsl", ""] ∧ wsl_cmd (Cmd.str "") "" false ≠ ["wsl"] :=
  ⟨by decide, by decide⟩

/--
Claim C3 (corrected): for every launcher mode and working directory,
`wsl_cmd` with an empty command never raises; the empty *list* command
contributes no tokens (prefix-only argv, plus the working-directory
segment when present), while the empty *string* command contributes
exactly one empty-string token after prefix and segment.
-/
theorem wsl_cmd_empty_command_amended (ext : Bool) (cwd : String) :
    wsl_cmd (Cmd.list []) cwd ext
        = (if ext then ["start", "cmd", "/k", "wsl"] else ["wsl"])
          ++ (if cwd = "" then [] else ["cd", wsl_path cwd, ";"]) ∧
    wsl_cmd (Cmd.str "") cwd ext
        = ((if ext then ["start", "cmd", "/k", "wsl"] else ["wsl"])
          ++ (if cwd = "" then [] else ["cd", wsl_path cwd, ";"])) ++ [""] := by
  have hsplit : (pySplit "").map pyStrip = [""] := by decide
  cases ext <;> by_cases h : cwd = "" <;> simp [wsl_cmd, h, hsplit]

/--
Claim C10 (confirmed): a string command is split on single spaces and each
token stripped of surrounding whitespace (string mode coincides with list
mode applied to the stripped split); consecutive or trailing spaces
produce empty-string tokens, and the empty string yields exactly one
empty-string token after the prefix.
-/
theorem wsl_cmd_string_tokenization :
    (∀ (s cwd : String) (ext : Bool),
      wsl_cmd (Cmd.str s) cwd ext = wsl_cmd (Cmd.list ((pySplit s).map pyStrip)) cwd ext) ∧
    wsl_cmd (Cmd.str "a  b ") "" false = ["wsl", "a", "", "b", ""] ∧
    wsl_cmd (Cmd.str "") "" false = ["wsl", ""] ∧
    wsl_cmd (Cmd.str "\techo  hi") "" false = ["wsl", "echo", "", "hi"] :=
  ⟨fun _ _ _ => rfl, by decide, by decide, by decide⟩

/-! ## Claims about `wsl_env` -/

/--
Claim C1 (code bug): suffix detection evaluates `key[-2]` without a length
guard, so a key of length 1 raises `IndexError` instead of returning a
result: `wsl_env({"A": "1"})` fails.
-/
theorem wsl_env_short_key_raises : wsl_env [("A", "1")] = Except.error errIndex := rfl

/--
Claim C2 (code bug): on the spec's own example input
`{"A": "1", "B/p": "C:\x"}` the function raises `IndexError` while
processing the length-1 key `"A"` (`key[-2]` is out of range), instead of
returning the documented mapping.
-/
theorem wsl_env_spec_example_raises :
    wsl_env [("A", "1"), ("B/p", "C:\\x")] = Except.error errIndex := rfl

/--
Claim C4 (counterexample): when both `"BB/p"` and its unflagged
counterpart `"BB"` are supplied, stripping the flag overwrites the entry
`BB=1`, so a supplied value is dropped.
-/
theorem wsl_env_duplicate_name_counterexample :
    wsl_env [("BB", "1"), ("BB/p", "2")] = Except.ok [("BB", "2"), ("WSLENV", "BB:BB/p")] ∧
    ("BB", "1") ∉ [("BB", "2"), ("WSLENV", "BB:BB/p")] :=
  ⟨rfl, by decide⟩

/-! ## Association-list lemmas towards the C4 invariant -/

theorem keysOf_append (l1 l2 : List (String × String)) :
    keysOf (l1 ++ l2) = keysOf l1 ++ keysOf l2 := List.map_append _ _ _

theorem mem_keysOf_of_mem {env : List (String × String)} {p : String × String}
    (h : p ∈ env) : p.1 ∈ keysOf env := List.mem_map_of_mem Prod.fst h

theorem dget_not_mem : ∀ (env : List (String × String)) (k d : String),
    k ∉ keysOf env → dget env k d = d
  | [], _, _, _ => rfl
  | (k2, v) :: rest, k, d, h => by
    have h1 : k ≠ k2 ∧ k ∉ keysOf rest := by simpa [keysOf, not_or] using h
    show (if k2 = k then v else dget rest k d) = d
    rw [if_neg (fun he => h1.1 he.symm)]
    exact dget_not_mem rest k d h1.2

theorem dset_not_mem : ∀ (env : List (String × String)) (k v : String),
    k ∉ keysOf env → dset env k v = env ++ [(k, v)]
  | [], _, _, _ => rfl
  | (k2, v2) :: rest, k, v, h => by
    have h1 : k ≠ k2 ∧ k ∉ keysOf rest := by simpa [keysOf, not_or] using h
    show (if k2 = k then (k, v) :: rest else (k2, v2) :: dset rest k v) = _
    rw [if_neg (fun he => h1.1 he.symm), dset_not_mem rest k v h1.2]
    rfl

theorem dpop_mem : ∀ (env : List (String × String)) (k : String), k ∈ keysOf env →
    ∃ v, dpop env k = some (v, eraseKey env k) ∧ (k, v) ∈ env
  | [], k, h => absurd h (by simp [keysOf])
  | (k2, v2) :: rest, k, h => by
    by_cases he : k2 = k
    · subst he
      exact ⟨v2, by simp [dpop, eraseKey], List.mem_cons_self _ _⟩
    · have hr : k ∈ keysOf rest := by
        simp only [keysOf, List.map_cons, List.mem_cons] at h
        rcases h with h | h
        · exact absurd h.symm he
        · exact h
      obtain ⟨v, hv, hmem⟩ := dpop_mem rest k hr
      exact ⟨v, by simp [dpop, eraseKey, he, hv], List.mem_cons_of_mem _ hmem⟩

theorem mem_eraseKey_of_ne : ∀ {env : List (String × String)} {p : String × String}
    (k : String), p ∈ env → p.1 ≠ k → p ∈ eraseKey env k
  | [], _, _, h, _ => absurd h (List.not_mem_nil _)
  | (k2, v2) :: rest, p, k, h, hne => by
    show p ∈ (if k2 = k then rest else (k2, v2) :: eraseKey rest k)
    rcases List.mem_cons.mp h with rfl | h2
    · rw [if_neg (by simpa using hne)]
      exact List.mem_cons_self _ _
    · by_cases he : k2 = k
      · rw [if_pos he]
        exact h2
      · rw [if_neg he]
        exact List.mem_cons_of_mem _ (mem_eraseKey_of_ne k h2 hne)

theorem eraseKey_sublist : ∀ (env : List (String × String)) (k : String),
    List.Sublist (eraseKey env k) env
  | [], _ => List.Sublist.refl _
  | (k2, v2) :: rest, k => by
    show List.Sublist (if k2 = k then rest else (k2, v2) :: eraseKey rest k) ((k2, v2) :: rest)
    split
    · exact List.sublist_cons_self _ _
    · exact List.Sublist.cons₂ _ (eraseKey_sublist rest k)

theorem keysOf_eraseKey_subset (env : List (String × String)) (k : String) :
    keysOf (eraseKey env k) ⊆ keysOf env :=
  ((eraseKey_sublist env k).map Prod.fst).subset

theorem nodup_keysOf_eraseKey {env : List (String × String)} {k : String}
    (h : (keysOf env).Nodup) : (keysOf (eraseKey env k)).Nodup :=
  List.Nodup.sublist ((eraseKey_sublist env k).map Prod.fst) h

theorem mem_keysOf_eraseKey {env : List (String × String)} {j k : String}
    (h : j ∈ keysOf env) (hne : j ≠ k) : j ∈ keysOf (eraseKey env k) := by
  rcases List.mem_map.mp h with ⟨p, hp, hpe⟩
  subst hpe
  exact List.mem_map_of_mem Prod.fst (mem_eraseKey_of_ne k hp hne)

theorem value_unique : ∀ {env : List (String × String)} {k v1 v2 : String},
    (keysOf env).Nodup → (k, v1) ∈ env → (k, v2) ∈ env → v1 = v2
  | [], _, _, _, _, h1, _ => absurd h1 (List.not_mem_nil _)
  | (k2, u) :: rest, k, v1, v2, hnd, h1, h2 => by
    simp only [keysOf, List.map_cons, List.nodup_cons] at hnd
    rcases List.mem_cons.mp h1 with he1 | hm1 <;> rcases List.mem_cons.mp h2 with he2 | hm2
    · rw [(Prod.mk.injEq .. ▸ he1 : k = k2 ∧ v1 = u).2,
        (Prod.mk.injEq .. ▸ he2 : k = k2 ∧ v2 = u).2]
    · exact absurd ((Prod.mk.injEq .. ▸ he1 : k = k2 ∧ v1 = u).1 ▸ mem_keysOf_of_mem hm2) hnd.1
    · exact absurd ((Prod.mk.injEq .. ▸ he2 : k = k2 ∧ v2 = u).1 ▸ mem_keysOf_of_mem hm1) hnd.1
    · exact value_unique hnd.2 hm1 hm2

theorem count_eq_one_of_nodup_mem : ∀ {l : List String} {a : String},
    l.Nodup → a ∈ l → l.count a = 1
  | [], _, _, hm => absurd hm (List.not_mem_nil _)
  | b :: l, a, hnd, hm => by
    simp only [List.nodup_cons] at hnd
    rcases List.mem_cons.mp hm with rfl | hm2
    · rw [List.count_cons_self, List.count_eq_zero.mpr hnd.1]
    · have hne : a ≠ b := fun he => hnd.1 (he ▸ hm2)
      rw [List.count_cons_of_ne hne, count_eq_one_of_nodup_mem hnd.2 hm2]

/--
Invariant of the flag-stripping loop: when every processed key is long
enough, present in the mapping, the keys are pairwise distinct, the
mapping's keys are pairwise distinct, no stripped name collides with a
mapping key or a processed key, and distinct flagged keys strip to
distinct names, then the loop succeeds, keeps the keys pairwise distinct,
keeps every entry it does not process, and re-keys every flagged processed
entry to its stripped name without losing its value.
-/
theorem envLoop_ok (keys : List String) : ∀ (env : List (String × String)),
    (∀ k ∈ keys, 2 ≤ k.data.length) →
    (∀ k ∈ keys, k ∈ keysOf env) →
    keys.Nodup →
    (keysOf env).Nodup →
    (∀ k ∈ keys, isFlagged k = true → stripFlag k ∉ keysOf env) →
    (∀ k ∈ keys, isFlagged k = true → stripFlag k ∉ keys) →
    (∀ k ∈ keys, ∀ j ∈ keys, isFlagged k = true → isFlagged j = true → k ≠ j →
      stripFlag k ≠ stripFlag j) →
    ∃ out, envLoop keys env = Except.ok out ∧ (keysOf out).Nodup ∧
      (∀ p ∈ env, p.1 ∉ keys → p ∈ out) ∧
      (∀ p ∈ env, p.1 ∈ keys → isFlagged p.1 = false → p ∈ out) ∧
      (∀ p ∈ env, p.1 ∈ keys → isFlagged p.1 = true → (stripFlag p.1, p.2) ∈ out) := by
  induction keys with
  | nil =>
    intro env _ _ _ hndE _ _ _
    exact ⟨env, rfl, hndE, fun p hp _ => hp,
      fun _ _ h => absurd h (List.not_mem_nil _),
      fun _ _ h => absurd h (List.not_mem_nil _)⟩
  | cons key ks ih =>
    intro env hlen hmem hndK hndE hsE hsK hinj
    have hlen2 : 2 ≤ key.length := hlen key (List.mem_cons_self _ _)
    have hlt : ¬ (key.length < 2) := by omega
    have hkey_env : key ∈ keysOf env := hmem key (List.mem_cons_self _ _)
    have hndK2 : ks.Nodup := (List.nodup_cons.mp hndK).2
    have hkey_nin_ks : key ∉ ks := (List.nodup_cons.mp hndK).1
    cases hflag : isFlagged key with
    | false =>
      have heq : envLoop (key :: ks) env = envLoop ks env := by
        simp [envLoop, hlt, hflag]
      obtain ⟨out, hout, hnd, hA, hB, hC⟩ := ih env
        (fun k hk => hlen k (List.mem_cons_of_mem _ hk))
        (fun k hk => hmem k (List.mem_cons_of_mem _ hk)) hndK2 hndE
        (fun k hk hf => hsE k (List.mem_cons_of_mem _ hk) hf)
        (fun k hk hf hm => hsK k (List.mem_cons_of_mem _ hk) hf (List.mem_cons_of_mem _ hm))
        (fun k hk j hj hfk hfj hne =>
          hinj k (List.mem_cons_of_mem _ hk) j (List.mem_cons_of_mem _ hj) hfk hfj hne)
      refine ⟨out, heq.trans hout, hnd, ?_, ?_, ?_⟩
      · intro p hp hnin
        exact hA p hp (fun hin => hnin (List.mem_cons_of_mem _ hin))
      · intro p hp hin hf
        rcases List.mem_cons.mp hin with he | hin2
        · exact hA p hp (he ▸ hkey_nin_ks)
        · exact hB p hp hin2 hf
      · intro p hp hin hf
        rcases List.mem_cons.mp hin with he | hin2
        · rw [he, hflag] at hf
          exact absurd hf (by decide)
        · exact hC p hp hin2 hf
    | true =>
      obtain ⟨v, hdpop, hkv⟩ := dpop_mem env key hkey_env
      have hsknin : stripFlag key ∉ keysOf env := hsE key (List.mem_cons_self _ _) hflag
      have henv2 : dset (eraseKey env key) (stripFlag key) v
          = eraseKey env key ++ [(stripFlag key, v)] :=
        dset_not_mem _ _ _ (fun hm => hsknin (keysOf_eraseKey_subset env key hm))
      have heq : envLoop (key :: ks) env
          = envLoop ks (eraseKey env key ++ [(stripFlag key, v)]) := by
        simp [envLoop, hlt, hflag, hdpop, henv2]
      have hkeys2 : keysOf (eraseKey env key ++ [(stripFlag key, v)])
          = keysOf (eraseKey env key) ++ [stripFlag key] := keysOf_append _ _
      have hmem2 : ∀ k ∈ ks, k ∈ keysOf (eraseKey env key ++ [(stripFlag key, v)]) := by
        intro k hk
        rw [hkeys2]
        refine List.mem_append.mpr (Or.inl ?_)
        exact mem_keysOf_eraseKey (hmem k (List.mem_cons_of_mem _ hk))
          (fun he => hkey_nin_ks (he ▸ hk))
      have hndE2 : (keysOf (eraseKey env key ++ [(stripFlag key, v)])).Nodup := by
        rw [hkeys2]
        refine List.Nodup.append (nodup_keysOf_eraseKey hndE) (List.nodup_singleton _) ?_
        intro x hx1 hx2
        rw [List.mem_singleton.mp hx2] at hx1
        exact hsknin (keysOf_eraseKey_subset env key hx1)
      have hsE2 : ∀ k ∈ ks, isFlagged k = true →
          stripFlag k ∉ keysOf (eraseKey env key ++ [(stripFlag key, v)]) := by
        intro k hk hf hm
        rw [hkeys2] at hm
        rcases List.mem_append.mp hm with h1 | h1
        · exact hsE k (List.mem_cons_of_mem _ hk) hf (keysOf_eraseKey_subset env key h1)
        · exact hinj k (List.mem_cons_of_mem _ hk) key (List.mem_cons_self _ _) hf hflag
            (fun he => hkey_nin_ks (he ▸ hk)) (List.mem_singleton.mp h1)
      obtain ⟨out, hout, hnd, hA, hB, hC⟩ := ih (eraseKey env key ++ [(stripFlag key, v)])
        (fun k hk => hlen k (List.mem_cons_of_mem _ hk)) hmem2 hndK2 hndE2 hsE2
        (fun k hk hf hm => hsK k (List.mem_cons_of_mem _ hk) hf (List.mem_cons_of_mem _ hm))
        (fun k hk j hj hfk hfj hne =>
          hinj k (List.mem_cons_of_mem _ hk) j (List.mem_cons_of_mem _ hj) hfk hfj hne)
      refine ⟨out, heq.trans hout, hnd, ?_, ?_, ?_⟩
      · intro p hp hnin
        have hne : p.1 ≠ key := fun he => hnin (he ▸ List.mem_cons_self _ _)
        have hp2 : p ∈ eraseKey env key ++ [(stripFlag key, v)] :=
          List.mem_append.mpr (Or.inl (mem_eraseKey_of_ne key hp hne))
        exact hA p hp2 (fun hin => hnin (List.mem_cons_of_mem _ hin))
      · intro p hp hin hf
        rcases List.mem_cons.mp hin with he | hin2
        · rw [he, hflag] at hf
          exact absurd hf (by decide)
        · have hne : p.1 ≠ key := fun he2 => hkey_nin_ks (he2 ▸ hin2)
          have hp2 : p ∈ eraseKey env key ++ [(stripFlag key, v)] :=
            List.mem_append.mpr (Or.inl (mem_eraseKey_of_ne key hp hne))
          exact hB p hp2 hin2 hf
      · intro p hp hin hf
        rcases List.mem_cons.mp hin with he | hin2
        · have hp' : (key, p.2) ∈ env := by
            rw [← he]
            exact hp
          have hpv : p.2 = v := value_unique hndE hp' hkv
          have hentry : (stripFlag key, v) ∈ eraseKey env key ++ [(stripFlag key, v)] :=
            List.mem_append.mpr (Or.inr (List.mem_singleton.mpr rfl))
          have hnin2 : stripFlag key ∉ ks :=
            fun hm => hsK key (List.mem_cons_self _ _) hflag (List.mem_cons_of_mem _ hm)
          have hres : (stripFlag key, v) ∈ out := hA _ hentry hnin2
          rw [he, hpv]
          exact hres
        · have hne : p.1 ≠ key := fun he2 => hkey_nin_ks (he2 ▸ hin2)
          have hp2 : p ∈ eraseKey env key ++ [(stripFlag key, v)] :=
            List.mem_append.mpr (Or.inl (mem_eraseKey_of_ne key hp hne))
          exact hC p hp2 hin2 hf

/--
Claim C4 (corrected): the bridge loses no supplied entry only under the
side conditions the counterexamples force: every input name is at least
two characters long (shorter raises), no input name is `WSLENV` (its value
is replaced by the directive) or strips to `WSLENV`, no flag-stripped name
collides with another input name (a flagged name and its unflagged
counterpart collapse to one entry), and distinct flagged names strip to
distinct names.  Then the call succeeds and every input name with its
conversion-flag suffix stripped appears exactly once in the output
mapping, still bound to its supplied value.
-/
theorem wsl_env_no_loss (env : List (String × String))
    (hnd : (keysOf env).Nodup)
    (hlen : ∀ k ∈ keysOf env, 2 ≤ k.data.length)
    (hW : "WSLENV" ∉ keysOf env)
    (hsW : ∀ k ∈ keysOf env, isFlagged k = true → stripFlag k ≠ "WSLENV")
    (hsnin : ∀ k ∈ keysOf env, isFlagged k = true → stripFlag k ∉ keysOf env)
    (hinj : ∀ k ∈ keysOf env, ∀ j ∈ keysOf env, isFlagged k = true → isFlagged j = true →
      k ≠ j → stripFlag k ≠ stripFlag j) :
    ∃ out, wsl_env env = Except.ok out ∧
      ∀ p ∈ env, (strippedName p.1, p.2) ∈ out ∧ (keysOf out).count (strippedName p.1) = 1 := by
  by_cases hne : keysOf env = []
  · have henv : env = [] := by
      cases env with
      | nil => rfl
      | cons q r => simp [keysOf] at hne
    subst henv
    exact ⟨[], rfl, fun p hp => absurd hp (List.not_mem_nil p)⟩
  · have hget : dget env "WSLENV" "" = "" := dget_not_mem env "WSLENV" "" hW
    have hset : dset env "WSLENV" (String.intercalate ":" (keysOf env))
        = env ++ [("WSLENV", String.intercalate ":" (keysOf env))] := dset_not_mem env _ _ hW
    have heq : wsl_env env = envLoop (keysOf env)
        (env ++ [("WSLENV", String.intercalate ":" (keysOf env))]) := by
      simp [wsl_env, hne, hget, hset]
    have hkeys2 : keysOf (env ++ [("WSLENV", String.intercalate ":" (keysOf env))])
        = keysOf env ++ ["WSLENV"] := keysOf_append _ _
    obtain ⟨out, hout, hnd2, hA, hB, hC⟩ :=
      envLoop_ok (keysOf env) (env ++ [("WSLENV", String.intercalate ":" (keysOf env))])
        hlen
        (fun k hk => by rw [hkeys2]; exact List.mem_append.mpr (Or.inl hk))
        hnd
        (by
          rw [hkeys2]
          refine List.Nodup.append hnd (List.nodup_singleton _) ?_
          intro x hx1 hx2
          rw [List.mem_singleton.mp hx2] at hx1
          exact hW hx1)
        (fun k hk hf hm => by
          rw [hkeys2] at hm
          rcases List.mem_append.mp hm with h1 | h1
          · exact hsnin k hk hf h1
          · exact hsW k hk hf (List.mem_singleton.mp h1))
        hsnin
        hinj
    refine ⟨out, heq.trans hout, ?_⟩
    intro p hp
    have hp2 : p ∈ env ++ [("WSLENV", String.intercalate ":" (keysOf env))] :=
      List.mem_append.mpr (Or.inl hp)
    have hpin : p.1 ∈ keysOf env := mem_keysOf_of_mem hp
    cases hf : isFlagged p.1 with
    | true =>
      have hsn : strippedName p.1 = stripFlag p.1 := by
        rw [strippedName, if_pos hf]
      have hm : (stripFlag p.1, p.2) ∈ out := hC p hp2 hpin hf
      rw [hsn]
      exact ⟨hm, count_eq_one_of_nodup_mem hnd2 (mem_keysOf_of_mem hm)⟩
    | false =>
      have hsn : strippedName p.1 = p.1 := by
        rw [strippedName, if_neg (by simp [hf])]
      have hm : p ∈ out := hB p hp2 hpin hf
      rw [hsn]
      exact ⟨hm, count_eq_one_of_nodup_mem hnd2 (mem_keysOf_of_mem hm)⟩

/-- Witness for the amended C4 at the mapping `{"AA": "1", "B/p": "2"}`. -/
theorem wsl_env_no_loss_witness :
    ∃ out, wsl_env [("AA", "1"), ("B/p", "2")] = Except.ok out ∧
      ∀ p ∈ [(("AA" : String), ("1" : String)), ("B/p", "2")],
        (strippedName p.1, p.2) ∈ out ∧ (keysOf out).count (strippedName p.1) = 1 :=
  wsl_env_no_loss [("AA", "1"), ("B/p", "2")] (by decide) (by decide) (by decide) (by decide)
    (by decide) (by decide)

